import Mathlib

/-
Verification of the preference-based Bayesian-optimization demo script
(`preference_bo.py`).

The script's own logic (data synthesis, pairwise-comparison generation,
dataset bookkeeping and the trial loop) is embedded shallowly below.
Floating-point tensors are modelled by lists over a linear ordered field
(`ℤ` for executable witnesses, `ℝ` for the statements about the actual
`utility` function, whose weights are real square roots; the script
logic only uses ring operations and comparisons, so it is embedded over
an arbitrary linear ordered commutative ring).  The ambient
numpy/torch random state is modelled by explicit oracle inputs: the index
draws of `np.random.choice` and the per-comparison Gaussian draws of
`np.random.standard_normal` are passed in as data, with the validity
guarantees that numpy provides for its own output (right count, in-range,
distinct when drawn without replacement) enforced by explicit checks.
The external BoTorch capabilities (`PairwiseGP` fitting and
`optimize_acqf`) are treated as opaque: a fit returns a fresh model token
recording which dataset it was fitted on, and the acquisition optimizer's
output points are oracle inputs.
-/

namespace PBO

/-! ### Constants of the script (the literal hyperparameters) -/

def NUM_TRIALS : Nat := 5
def NUM_BATCHES : Nat := 10
def dim : Nat := 5
def num_restarts : Nat := 3
def num_raw_samples : Nat := 128
def q : Nat := 3
def q_comp : Nat := 3

variable {α : Type} [LinearOrderedCommRing α]

/-! ### The latent utility function

`utility(X)` multiplies a point elementwise with the weight vector
`torch.sqrt(torch.arange(d) + 1)` and sums; `utilityW` is that
computation for an arbitrary weight sequence `w`, and `utility` is the
script's instance with `w i = √(i + 1)`. -/

def utilityW (w : Nat → α) (x : List α) : α :=
  (List.zipWith (fun xi wi => xi * wi) x ((List.range x.length).map w)).sum

noncomputable def utility (x : List ℝ) : ℝ :=
  utilityW (fun i => Real.sqrt (i + 1)) x

/-- `tensor.max().item()` on a one-dimensional tensor: the greatest
element of the list (the script only ever applies it to nonempty data;
the `0` for `[]` is an arbitrary junk value, torch would raise there). -/
def torchMax (l : List α) : α :=
  match l with
  | [] => 0
  | x :: xs => xs.foldl max x

/-- The point at which the script evaluates the known optimum:
`utility(torch.tensor([[1] * dim])).item()`. -/
noncomputable def optimal_val : ℝ := utility (List.replicate dim 1)

/-! ### Comparison generation (`generate_comparisons`) -/

/-- `np.array(list(combinations(range(n), 2)))`: all index pairs `(i, j)`
with `i < j < n`, in the lexicographic order `itertools.combinations`
produces them in. -/
def allPairs (n : Nat) : List (Nat × Nat) :=
  (List.range n).flatMap (fun i =>
    ((List.range n).filter (fun j => i < j)).map (fun j => (i, j)))

def npChoiceMsg : String :=
  "Cannot take a larger sample than population when replace is False"

/-- `np.random.choice(range(popSize), n_comp, replace=replace)`.
The random draws are the oracle input `picks`; numpy raises when more
samples than the population are requested without replacement, and its
own output is guaranteed to consist of exactly `n_comp` in-range draws,
distinct when `replace` is false — those guarantees are enforced as
checks on the oracle. -/
def np_random_choice (popSize n_comp : Nat) (replace : Bool)
    (picks : List Nat) : Except String (List Nat) :=
  if replace = false ∧ popSize < n_comp then .error npChoiceMsg
  else if picks.length ≠ n_comp then .error "rng oracle: wrong number of draws"
  else if ¬ (∀ i ∈ picks, i < popSize) then .error "rng oracle: draw out of range"
  else if replace = false ∧ ¬ picks.Nodup then .error "rng oracle: repeated draw"
  else .ok picks

/-- `all_pairs[idxs]`: fancy indexing of the pair table by the chosen
row indices. -/
def pickPairs (n : Nat) (idxs : List Nat) : List (Nat × Nat) :=
  idxs.map (fun i => (allPairs n).getD i (0, 0))

/-- The noisy ordering step of `generate_comparisons`: for row `k` with
pair `p`, `c0 = y[p.1] + g0 k * noise` and `c1 = y[p.2] + g1 k * noise`
are the two noisy scores, and the pair is flipped when `c0 < c1`. -/
def noisyFlip (y : List α) (nz : α) (g0 g1 : Nat → α)
    (pairs : List (Nat × Nat)) : List (Nat × Nat) :=
  (List.range pairs.length).map (fun k =>
    let p := pairs.getD k (0, 0)
    let c0 := y.getD p.1 0 + g0 k * nz
    let c1 := y.getD p.2 0 + g1 k * nz
    if c0 < c1 then (p.2, p.1) else p)

/-- `generate_comparisons(y, n_comp, noise, replace)` with the random
draws (`picks` for `np.random.choice`, `g0`/`g1` for the two
`np.random.standard_normal` streams) passed as oracle inputs. -/
def generate_comparisons (y : List α) (n_comp : Nat) (nz : α)
    (replace : Bool) (picks : List Nat) (g0 g1 : Nat → α) :
    Except String (List (Nat × Nat)) :=
  (np_random_choice (allPairs y.length).length n_comp replace picks).map
    (fun idxs => noisyFlip y nz g0 g1 (pickPairs y.length idxs))

/-! ### Data generation (`generate_data`) -/

/-- `generate_data(n, dim)`: `n` points of `dim` uniform coordinates
(the coordinate draws are the oracle input `coords`), together with
their utility values. -/
def generate_data (w : Nat → α) (n d : Nat) (coords : Nat → Nat → α) :
    List (List α) × List α :=
  let X := (List.range n).map (fun i => (List.range d).map (fun j => coords i j))
  (X, X.map (utilityW w))

/-! ### Dataset merge (`make_new_data`) -/

/-- `make_new_data(X, next_X, comps, q_comp)`: the `next_X.to(X)` dtype
cast is the identity in this numeric model; the new comparisons among
`next_X` are offset by `X.shape[-2]` (the current number of points) and
concatenated. -/
def make_new_data (w : Nat → α) (nz : α) (X next_X : List (List α))
    (comps : List (Nat × Nat)) (qc : Nat) (picks : List Nat)
    (g0 g1 : Nat → α) :
    Except String (List (List α) × List (Nat × Nat)) := do
  let next_y := next_X.map (utilityW w)
  let next_comps ← generate_comparisons next_y qc nz false picks g0 g1
  let comps' := comps ++ next_comps.map (fun r => (r.1 + X.length, r.2 + X.length))
  let X' := X ++ next_X
  return (X', comps')

/-! ### The trial loop

`init_and_fit_model` constructs and fits a `PairwiseGP`; the fit itself
is an external library call, so a model is represented by a fresh token
`mid` together with the dataset the fit was given.  The optional
`state_dict` warm start only speeds up fitting and does not change what
the model was fitted on. -/

structure Model (α : Type) where
  mid : Nat
  fitX : List (List α)
  fitComps : List (Nat × Nat)
deriving DecidableEq, Inhabited

def init_and_fit_model (X : List (List α)) (comps : List (Nat × Nat))
    (state_dict : Option Nat) (ctr : Nat) : Model α × Nat :=
  (⟨ctr, X, comps⟩, ctr + 1)

/-- One variant's accumulated dataset `data[algo] = (X, comps)`. -/
structure AlgoData (α : Type) where
  X : List (List α)
  comps : List (Nat × Nat)
deriving DecidableEq, Inhabited

/-- Oracle randomness for one `generate_comparisons` call. -/
structure CompRnd (α : Type) where
  picks : List Nat
  g0 : Nat → α
  g1 : Nat → α

/-- Oracle inputs of one batch iteration `j`: the points returned by
`optimize_acqf` for the qNEI variant, the uniform coordinate draws of
`generate_data` for the random variant, and the comparison randomness
of the two `make_new_data` calls. -/
structure BatchRnd (α : Type) where
  acqNext : List (List α)
  qneiComp : CompRnd α
  randCoords : Nat → Nat → α
  randComp : CompRnd α

/-- Oracle inputs of one trial: the initial data draws and the
per-batch draws. -/
structure TrialRnd (α : Type) where
  initCoords : Nat → Nat → α
  initComp : CompRnd α
  batches : Nat → BatchRnd α

/-- The mutable state of one trial, mirroring the script's variables:
`data[algo]`, `models[algo]`, the leaked Python loop variable `model`
(`mVar`), the per-trial `best_vals[algo][-1]` lists, and — for the
statements below — the history of each variant's dataset after every
update and a log of the model handed to `qNoisyExpectedImprovement`
at each batch (together with the `models["qNEI"]` and `models["rand"]`
entries current at that moment). -/
structure TrialSt (α : Type) where
  dataQ : AlgoData α
  dataR : AlgoData α
  mQ : Model α
  mR : Model α
  mVar : Model α
  bestQ : List α
  bestR : List α
  histQ : List (AlgoData α)
  histR : List (AlgoData α)
  acqLog : List (Model α × Model α × Model α)
  ctr : Nat
deriving DecidableEq, Inhabited

/-- The per-trial initialization (script lines: draw `init_X`,
`comparisons`, then `for algo in ["qNEI", "rand"]`: store the shared
data, fit a fresh model per variant, record the initial best value).
The loop leaves `model = models["rand"]`, the last variant fitted. -/
def initTrial (w : Nat → α) (nz : α) (r : TrialRnd α) :
    Except String (TrialSt α) := do
  let dd := generate_data w q dim r.initCoords
  let comparisons ← generate_comparisons dd.2 q_comp nz false
    r.initComp.picks r.initComp.g0 r.initComp.g1
  let fitQ := init_and_fit_model dd.1 comparisons none 0
  let fitR := init_and_fit_model dd.1 comparisons none fitQ.2
  let best0 := torchMax (dd.1.map (utilityW w))
  return { dataQ := ⟨dd.1, comparisons⟩,
           dataR := ⟨dd.1, comparisons⟩,
           mQ := fitQ.1, mR := fitR.1, mVar := fitR.1,
           bestQ := [best0], bestR := [best0],
           histQ := [⟨dd.1, comparisons⟩],
           histR := [⟨dd.1, comparisons⟩],
           acqLog := [], ctr := fitR.2 }

/-- The `algo = "qNEI"` iteration of the inner loop of one batch.  The
acquisition function is built with `model=model` — the leaked loop
variable `mVar` — and `X_baseline=data["qNEI"][0]`, and `optimize_acqf`
returns `br.acqNext`; then the dataset is merged, the variant's model
refit (warm-started from `models["qNEI"].state_dict()`), stored, and
the running best recorded.  The loop variable `model` is left holding
the refit model. -/
def qneiStep (w : Nat → α) (nz : α) (br : BatchRnd α) (s : TrialSt α) :
    Except String (TrialSt α) := do
  let acqModel := s.mVar
  let next_X := br.acqNext
  let xc ← make_new_data w nz s.dataQ.X next_X s.dataQ.comps q_comp
    br.qneiComp.picks br.qneiComp.g0 br.qneiComp.g1
  let fit := init_and_fit_model xc.1 xc.2 (some s.mQ.mid) s.ctr
  let bq := torchMax (xc.1.map (utilityW w))
  return { s with
    dataQ := ⟨xc.1, xc.2⟩, mQ := fit.1, mVar := fit.1,
    bestQ := s.bestQ ++ [bq],
    histQ := s.histQ ++ [⟨xc.1, xc.2⟩],
    acqLog := s.acqLog ++ [(acqModel, s.mQ, s.mR)],
    ctr := fit.2 }

/-- The `algo = "rand"` iteration of the inner loop of one batch: `q`
fresh uniform points, no model involved in proposing; then merge,
refit, store and record as above. -/
def randStep (w : Nat → α) (nz : α) (br : BatchRnd α) (s : TrialSt α) :
    Except String (TrialSt α) := do
  let next_Xr := (generate_data w q dim br.randCoords).1
  let xc ← make_new_data w nz s.dataR.X next_Xr s.dataR.comps q_comp
    br.randComp.picks br.randComp.g0 br.randComp.g1
  let fit := init_and_fit_model xc.1 xc.2 (some s.mR.mid) s.ctr
  let brv := torchMax (xc.1.map (utilityW w))
  return { s with
    dataR := ⟨xc.1, xc.2⟩, mR := fit.1, mVar := fit.1,
    bestR := s.bestR ++ [brv],
    histR := s.histR ++ [⟨xc.1, xc.2⟩],
    ctr := fit.2 }

/-- One batch iteration `j` of `for algo in algos` with
`algos = ["qNEI", "rand"]`: the qNEI iteration followed by the random
iteration. -/
def batchStep (w : Nat → α) (nz : α) (s : TrialSt α) (br : BatchRnd α) :
    Except String (TrialSt α) := do
  randStep w nz br (← qneiStep w nz br s)

/-- Batches `1, …, n` in order (`for j in range(1, NUM_BATCHES + 1)`). -/
def runBatches (w : Nat → α) (nz : α) (s : TrialSt α)
    (br : Nat → BatchRnd α) : Nat → Except String (TrialSt α)
  | 0 => .ok s
  | n + 1 => do batchStep w nz (← runBatches w nz s br n) (br (n + 1))

/-- One full trial of the loop. -/
def runTrial (w : Nat → α) (nz : α) (r : TrialRnd α) :
    Except String (TrialSt α) := do
  runBatches w nz (← initTrial w nz r) r.batches NUM_BATCHES

/-! ### Reporting (`ci` and the per-step mean) -/

/-- Column `j` of the stacked trajectory matrix (`np.vstack`), i.e. the
values of step `j` across trials. -/
def column (m : List (List ℝ)) (j : Nat) : List ℝ :=
  m.map (fun row => row.getD j 0)

/-- `np.mean` of a vector. -/
noncomputable def npMean (v : List ℝ) : ℝ := v.sum / v.length

/-- `np.std` of a vector (numpy default `ddof=0`): the square root of
the mean squared deviation from the mean. -/
noncomputable def npStd (v : List ℝ) : ℝ :=
  Real.sqrt (npMean (v.map (fun a => (a - npMean v) ^ 2)))

/-- Step `j` of `ys.mean(axis=0)`. -/
noncomputable def meanAt (m : List (List ℝ)) (j : Nat) : ℝ := npMean (column m j)

/-- Step `j` of `ci(ys) = 1.96 * ys.std(axis=0) / np.sqrt(ys.shape[0])`. -/
noncomputable def ciAt (m : List (List ℝ)) (j : Nat) : ℝ :=
  1.96 * npStd (column m j) / Real.sqrt (m.length)

/-- Modelled from the spec's words, for comparison with the code's
`ci`/`mean`: the per-step mean `∑ v i / t` and the 95%-confidence
half-width `1.96 × √(∑ (v i − mean)² / t) / √t` over the `t` per-trial
values of a step, written with explicit finite sums. -/
noncomputable def specMean (v : List ℝ) : ℝ :=
  (∑ i ∈ Finset.range v.length, v.getD i 0) / v.length

/-- Spec-side half-width, see `specMean`. -/
noncomputable def specHalfWidth (t : Nat) (v : List ℝ) : ℝ :=
  1.96 * Real.sqrt ((∑ i ∈ Finset.range v.length,
    (v.getD i 0 - specMean v) ^ 2) / v.length) / Real.sqrt t

/-! ### Lemmas about the pair table -/

theorem mem_allPairs {n : Nat} {p : Nat × Nat} :
    p ∈ allPairs n ↔ p.1 < p.2 ∧ p.2 < n := by
  obtain ⟨a, b⟩ := p
  constructor
  · intro h
    simp only [allPairs, List.mem_flatMap, List.mem_map, List.mem_filter,
      List.mem_range] at h
    obtain ⟨i, hi, j, ⟨hjn, hij⟩, he⟩ := h
    obtain ⟨rfl, rfl⟩ := Prod.mk.injEq .. ▸ he
    exact ⟨by simpa using hij, hjn⟩
  · rintro ⟨hab, hbn⟩
    simp only [allPairs, List.mem_flatMap, List.mem_map, List.mem_filter,
      List.mem_range]
    exact ⟨a, lt_trans hab hbn, b, ⟨hbn, by simpa using hab⟩, rfl⟩

theorem length_filter_lt (n i : Nat) :
    ((List.range n).filter (fun j => i < j)).length = n - (i + 1) := by
  induction n with
  | zero => simp
  | succ m ih =>
    rw [List.range_succ, List.filter_append, List.length_append, ih]
    by_cases h : i < m
    · have hf : List.filter (fun j => decide (i < j)) [m] = [m] := by simp [h]
      rw [hf]
      simp only [List.length_cons, List.length_nil]
      omega
    · have hf : List.filter (fun j => decide (i < j)) [m] = [] := by simp [h]
      rw [hf]
      simp only [List.length_nil]
      omega

theorem list_range_map_sum {M : Type} [AddCommMonoid M] (n : Nat) (f : Nat → M) :
    ((List.range n).map f).sum = ∑ i ∈ Finset.range n, f i := by
  induction n with
  | zero => simp
  | succ m ih =>
    rw [List.range_succ, List.map_append, List.sum_append, Finset.sum_range_succ, ih]
    simp

theorem allPairs_length (n : Nat) : (allPairs n).length = n.choose 2 := by
  rw [allPairs, List.length_flatMap]
  have h1 : List.map (List.length ∘ fun i =>
      ((List.range n).filter (fun j => i < j)).map (fun j => (i, j))) (List.range n)
      = List.map (fun i => n - (i + 1)) (List.range n) := by
    refine List.map_congr_left (fun i _ => ?_)
    simp [length_filter_lt]
  rw [h1, list_range_map_sum]
  have h2 : ∑ i ∈ Finset.range n, (n - (i + 1)) = ∑ i ∈ Finset.range n, (n - 1 - i) :=
    Finset.sum_congr rfl (fun i _ => by omega)
  rw [h2, Finset.sum_range_reflect (fun j => j) n, Finset.sum_range_id,
    Nat.choose_two_right]

theorem allPairs_nodup (n : Nat) : (allPairs n).Nodup := by
  rw [allPairs, List.nodup_flatMap]
  constructor
  · intro i _
    exact ((List.nodup_range n).filter _).map (fun a b h => by simpa using h)
  · refine (List.pairwise_lt_range n).imp ?_
    intro i i' hlt x hx hx'
    simp only [List.mem_map, List.mem_filter, List.mem_range] at hx hx'
    obtain ⟨j, -, rfl⟩ := hx
    obtain ⟨j', -, h2⟩ := hx'
    have h3 := congrArg Prod.fst h2
    simp only [Prod.fst] at h3
    omega

/-! ### Lemmas about the modelled `np.random.choice` -/

theorem np_random_choice_ok {popSize n_comp : Nat} {replace : Bool}
    {picks l : List Nat}
    (h : np_random_choice popSize n_comp replace picks = .ok l) :
    l = picks ∧ picks.length = n_comp ∧ (∀ i ∈ picks, i < popSize) ∧
      (replace = false → n_comp ≤ popSize ∧ picks.Nodup) := by
  unfold np_random_choice at h
  by_cases h1 : replace = false ∧ popSize < n_comp
  · rw [if_pos h1] at h; exact absurd h (by simp)
  rw [if_neg h1] at h
  by_cases h2 : picks.length ≠ n_comp
  · rw [if_pos h2] at h; exact absurd h (by simp)
  rw [if_neg h2] at h
  by_cases h3 : ¬ ∀ i ∈ picks, i < popSize
  · rw [if_pos h3] at h; exact absurd h (by simp)
  rw [if_neg h3] at h
  by_cases h4 : replace = false ∧ ¬ picks.Nodup
  · rw [if_pos h4] at h; exact absurd h (by simp)
  rw [if_neg h4] at h
  injection h with h
  subst h
  push_neg at h2 h3
  refine ⟨rfl, h2, h3, fun hr => ⟨?_, ?_⟩⟩
  · by_contra hgt
    exact h1 ⟨hr, by omega⟩
  · by_contra hnd
    exact h4 ⟨hr, hnd⟩

theorem np_random_choice_ok_of_valid {popSize n_comp : Nat} {picks : List Nat}
    (hlen : picks.length = n_comp) (hlt : ∀ i ∈ picks, i < popSize)
    (hnd : picks.Nodup) (hle : n_comp ≤ popSize) :
    np_random_choice popSize n_comp false picks = .ok picks := by
  unfold np_random_choice
  rw [if_neg (fun hc => absurd hc.2 (by omega)),
      if_neg (fun hc => hc hlen),
      if_neg (fun hc => hc hlt),
      if_neg (fun hc => hc.2 hnd)]

theorem np_random_choice_error {popSize n_comp : Nat} {picks : List Nat}
    (h : popSize < n_comp) :
    np_random_choice popSize n_comp false picks = .error npChoiceMsg := by
  unfold np_random_choice
  rw [if_pos ⟨rfl, h⟩]

/-! ### Lemmas about `generate_comparisons` -/

theorem generate_comparisons_error {y : List α} {n_comp : Nat} {nz : α}
    {picks : List Nat} {g0 g1 : Nat → α} (h : (y.length).choose 2 < n_comp) :
    generate_comparisons y n_comp nz false picks g0 g1 = .error npChoiceMsg := by
  unfold generate_comparisons
  rw [np_random_choice_error (by rw [allPairs_length]; exact h)]
  rfl

theorem generate_comparisons_ok {y : List α} {n_comp : Nat} {nz : α}
    {replace : Bool} {picks : List Nat} {g0 g1 : Nat → α}
    {rows : List (Nat × Nat)}
    (h : generate_comparisons y n_comp nz replace picks g0 g1 = .ok rows) :
    rows = noisyFlip y nz g0 g1 (pickPairs y.length picks) ∧
      picks.length = n_comp ∧ (∀ i ∈ picks, i < (allPairs y.length).length) ∧
      (replace = false → picks.Nodup) := by
  unfold generate_comparisons at h
  cases hc : np_random_choice (allPairs y.length).length n_comp replace picks with
  | error e => rw [hc] at h; exact absurd h (by simp [Except.map])
  | ok idxs =>
    rw [hc] at h
    obtain ⟨hl, hlen, hmem, hnd⟩ := np_random_choice_ok hc
    subst hl
    simp only [Except.map] at h
    exact ⟨(Except.ok.injEq .. ▸ h).symm, hlen, hmem, fun hr => (hnd hr).2⟩

theorem generate_comparisons_ok_of_valid {y : List α} {n_comp : Nat} {nz : α}
    {picks : List Nat} (g0 g1 : Nat → α)
    (hlen : picks.length = n_comp)
    (hlt : ∀ i ∈ picks, i < (y.length).choose 2)
    (hnd : picks.Nodup) (hle : n_comp ≤ (y.length).choose 2) :
    generate_comparisons y n_comp nz false picks g0 g1
      = .ok (noisyFlip y nz g0 g1 (pickPairs y.length picks)) := by
  unfold generate_comparisons
  rw [np_random_choice_ok_of_valid hlen
    (fun i hi => by rw [allPairs_length]; exact hlt i hi) hnd
    (by rw [allPairs_length]; exact hle)]
  rfl

theorem noisyFlip_length (y : List α) (nz : α) (g0 g1 : Nat → α)
    (pairs : List (Nat × Nat)) :
    (noisyFlip y nz g0 g1 pairs).length = pairs.length := by
  simp [noisyFlip]

theorem pickPairs_length (n : Nat) (idxs : List Nat) :
    (pickPairs n idxs).length = idxs.length := by
  simp [pickPairs]

theorem pickPairs_mem {n : Nat} {idxs : List Nat}
    (h : ∀ i ∈ idxs, i < (allPairs n).length) :
    ∀ p ∈ pickPairs n idxs, p ∈ allPairs n := by
  intro p hp
  simp only [pickPairs, List.mem_map] at hp
  obtain ⟨i, hi, rfl⟩ := hp
  rw [List.getD_eq_getElem _ _ (h i hi)]
  exact List.getElem_mem _

theorem noisyFlip_mem {y : List α} {nz : α} {g0 g1 : Nat → α}
    {pairs : List (Nat × Nat)}
    (hp : ∀ p ∈ pairs, p.1 < y.length ∧ p.2 < y.length)
    {r : Nat × Nat} (hr : r ∈ noisyFlip y nz g0 g1 pairs) :
    r.1 < y.length ∧ r.2 < y.length := by
  simp only [noisyFlip, List.mem_map, List.mem_range] at hr
  obtain ⟨k, hk, hrk⟩ := hr
  have hpk : pairs.getD k (0, 0) ∈ pairs := by
    rw [List.getD_eq_getElem _ _ hk]; exact List.getElem_mem _
  have hb := hp _ hpk
  rw [← hrk]
  split
  · exact ⟨hb.2, hb.1⟩
  · exact hb

theorem generate_comparisons_ok_bounds {y : List α} {n_comp : Nat} {nz : α}
    {replace : Bool} {picks : List Nat} {g0 g1 : Nat → α}
    {rows : List (Nat × Nat)}
    (h : generate_comparisons y n_comp nz replace picks g0 g1 = .ok rows) :
    rows.length = n_comp ∧ ∀ r ∈ rows, r.1 < y.length ∧ r.2 < y.length := by
  obtain ⟨hrows, hlen, hmem, -⟩ := generate_comparisons_ok h
  subst hrows
  refine ⟨by rw [noisyFlip_length, pickPairs_length, hlen], ?_⟩
  intro r hr
  refine noisyFlip_mem (fun p hp => ?_) hr
  have hm := mem_allPairs.mp (pickPairs_mem hmem p hp)
  omega

/-! ### The utility function as a finite sum -/

theorem utilityW_eq_sum (w : Nat → α) (x : List α) :
    utilityW w x = ∑ i ∈ Finset.range x.length, x.getD i 0 * w i := by
  induction x generalizing w with
  | nil => simp [utilityW]
  | cons a xs ih =>
    have h1 : utilityW w (a :: xs) = a * w 0 + utilityW (fun i => w (i + 1)) xs := by
      simp only [utilityW, List.length_cons, List.range_succ_eq_map, List.map_cons,
        List.map_map, List.zipWith_cons_cons, List.sum_cons]
      rfl
    rw [h1, ih, List.length_cons, Finset.sum_range_succ']
    simp only [List.getD_cons_succ, List.getD_cons_zero]
    ring

theorem utilityW_eq_sum_Icc (w : Nat → α) (x : List α) :
    utilityW w x = ∑ i ∈ Finset.Icc 1 x.length, w (i - 1) * x.getD (i - 1) 0 := by
  rw [utilityW_eq_sum, ← Nat.Ico_succ_right, Finset.sum_Ico_eq_sum_range]
  have h1 : x.length + 1 - 1 = x.length := by omega
  rw [h1]
  refine Finset.sum_congr rfl (fun i _ => ?_)
  have h2 : 1 + i - 1 = i := by omega
  rw [h2, mul_comm]

/-! ### Lemmas about `torchMax` -/

theorem le_foldl_max (a : α) (l : List α) : a ≤ l.foldl max a := by
  induction l generalizing a with
  | nil => simp
  | cons x xs ih => exact le_trans (le_max_left a x) (ih (max a x))

theorem foldl_max_le {b : α} {l : List α} {a : α} (ha : a ≤ b)
    (hl : ∀ y ∈ l, y ≤ b) : l.foldl max a ≤ b := by
  induction l generalizing a with
  | nil => simpa
  | cons x xs ih =>
    exact ih (max_le ha (hl x (List.mem_cons_self x xs)))
      (fun y hy => hl y (List.mem_cons_of_mem _ hy))

theorem torchMax_le_append (l t : List α) (hl : l ≠ []) :
    torchMax l ≤ torchMax (l ++ t) := by
  cases l with
  | nil => exact absurd rfl hl
  | cons x xs =>
    have h1 : torchMax (x :: xs) = xs.foldl max x := rfl
    have h2 : torchMax ((x :: xs) ++ t) = (xs ++ t).foldl max x := rfl
    rw [h1, h2, List.foldl_append]
    exact le_foldl_max _ _

theorem torchMax_le {l : List α} {b : α} (hb : 0 ≤ b) (hl : ∀ y ∈ l, y ≤ b) :
    torchMax l ≤ b := by
  cases l with
  | nil => simpa [torchMax]
  | cons x xs =>
    exact foldl_max_le (hl x (List.mem_cons_self x xs))
      (fun y hy => hl y (List.mem_cons_of_mem _ hy))

/-! ### List sums as finite sums over positions -/

theorem list_sum_eq_sum_getD {M : Type} [AddCommMonoid M] (l : List M) :
    l.sum = ∑ i ∈ Finset.range l.length, l.getD i 0 := by
  induction l with
  | nil => simp
  | cons a xs ih =>
    rw [List.sum_cons, List.length_cons, Finset.sum_range_succ', ih]
    simp only [List.getD_cons_succ, List.getD_cons_zero]
    exact (add_comm _ _)

/-! ### Pointwise description of `noisyFlip` -/

theorem noisyFlip_getElem (y : List α) (nz : α) (g0 g1 : Nat → α)
    (pairs : List (Nat × Nat)) (k : Nat)
    (hk : k < (noisyFlip y nz g0 g1 pairs).length) :
    (noisyFlip y nz g0 g1 pairs)[k]
      = (if y.getD (pairs.getD k (0, 0)).1 0 + g0 k * nz
            < y.getD (pairs.getD k (0, 0)).2 0 + g1 k * nz
          then ((pairs.getD k (0, 0)).2, (pairs.getD k (0, 0)).1)
          else pairs.getD k (0, 0)) := by
  simp only [noisyFlip, List.getElem_map, List.getElem_range]

theorem noisyFlip_getD (y : List α) (nz : α) (g0 g1 : Nat → α)
    (pairs : List (Nat × Nat)) (k : Nat) (hk : k < pairs.length) :
    (noisyFlip y nz g0 g1 pairs).getD k (0, 0)
      = (if y.getD (pairs.getD k (0, 0)).1 0 + g0 k * nz
            < y.getD (pairs.getD k (0, 0)).2 0 + g1 k * nz
          then ((pairs.getD k (0, 0)).2, (pairs.getD k (0, 0)).1)
          else pairs.getD k (0, 0)) := by
  have hk' : k < (noisyFlip y nz g0 g1 pairs).length := by
    rw [noisyFlip_length]; exact hk
  rw [List.getD_eq_getElem _ _ hk', noisyFlip_getElem _ _ _ _ _ _ hk']

theorem noisyFlip_norm {y : List α} {nz : α} {g0 g1 : Nat → α}
    {pairs : List (Nat × Nat)} (hp : ∀ p ∈ pairs, p.1 < p.2) :
    (noisyFlip y nz g0 g1 pairs).map (fun r => (min r.1 r.2, max r.1 r.2))
      = pairs := by
  apply List.ext_getElem
  · rw [List.length_map, noisyFlip_length]
  · intro k h1 h2
    have hk' : k < (noisyFlip y nz g0 g1 pairs).length := by
      rw [noisyFlip_length]; exact h2
    rw [List.getElem_map, noisyFlip_getElem _ _ _ _ _ _ hk',
      List.getD_eq_getElem _ _ h2]
    have hlt := hp _ (List.getElem_mem h2)
    split
    · simp only [min_eq_right (le_of_lt hlt), max_eq_left (le_of_lt hlt)]
    · simp only [min_eq_left (le_of_lt hlt), max_eq_right (le_of_lt hlt)]

theorem pickPairs_nodup {n : Nat} {idxs : List Nat} (hnd : idxs.Nodup)
    (hlt : ∀ i ∈ idxs, i < (allPairs n).length) :
    (pickPairs n idxs).Nodup := by
  refine List.Nodup.map_on ?_ hnd
  intro i hi j hj hij
  rw [List.getD_eq_getElem _ _ (hlt i hi), List.getD_eq_getElem _ _ (hlt j hj)]
    at hij
  exact ((allPairs_nodup n).getElem_inj_iff).mp hij

/-! ### Lemmas about `make_new_data` -/

theorem make_new_data_ok {w : Nat → α} {nz : α} {X next_X : List (List α)}
    {comps : List (Nat × Nat)} {qc : Nat} {picks : List Nat} {g0 g1 : Nat → α}
    {X' : List (List α)} {comps' : List (Nat × Nat)}
    (h : make_new_data w nz X next_X comps qc picks g0 g1 = .ok (X', comps')) :
    ∃ nc, generate_comparisons (next_X.map (utilityW w)) qc nz false picks g0 g1
        = .ok nc ∧
      X' = X ++ next_X ∧
      comps' = comps ++ nc.map (fun r => (r.1 + X.length, r.2 + X.length)) ∧
      nc.length = qc ∧ (∀ r ∈ nc, r.1 < next_X.length ∧ r.2 < next_X.length) := by
  unfold make_new_data at h
  dsimp only at h
  cases hg : generate_comparisons (next_X.map (utilityW w)) qc nz false picks g0 g1 with
  | error e =>
    rw [hg] at h
    exact absurd h (by simp [Bind.bind, Except.bind])
  | ok nc =>
    rw [hg] at h
    simp only [Bind.bind, Except.bind, pure, Except.pure, Except.ok.injEq,
      Prod.mk.injEq] at h
    obtain ⟨hX, hC⟩ := h
    obtain ⟨hL, hB⟩ := generate_comparisons_ok_bounds hg
    rw [List.length_map] at hB
    exact ⟨nc, rfl, hX.symm, hC.symm, by rw [hL], hB⟩

/-! ### Dataset invariants of the trial loop -/

/-- Every comparison row references valid point indices. -/
def compsValid (a : AlgoData α) : Prop :=
  ∀ r ∈ a.comps, r.1 < a.X.length ∧ r.2 < a.X.length

/-- One update step only appends: points and comparisons grow by
concatenation. -/
def growStep (a b : AlgoData α) : Prop :=
  (∃ t, b.X = a.X ++ t) ∧ (∃ c, b.comps = a.comps ++ c)

/-- `growStep` strengthened with nonemptiness of the earlier points. -/
def growRel (a b : AlgoData α) : Prop := a.X ≠ [] ∧ growStep a b

theorem mem_of_getLast_eq {β : Type} {l : List β} {a : β}
    (h : l.getLast? = some a) : a ∈ l := by
  obtain ⟨hne, he⟩ := List.mem_getLast?_eq_getLast h
  rw [he]
  exact List.getLast_mem hne

theorem ne_nil_of_getLast_eq {β : Type} {l : List β} {a : β}
    (h : l.getLast? = some a) : l ≠ [] := by
  intro hc
  rw [hc] at h
  simp at h

/-- The loop invariant tying the script's state together: the leaked
`model` variable equals `models["rand"]`; the two stored models are
distinct fits (fresh ids below the counter); every acquisition call so
far received exactly the current `models["rand"]` and never
`models["qNEI"]`; each variant's dataset history is append-only,
index-valid, nonempty, and ends in the current dataset; and the
recorded best values are the per-update maxima over the history. -/
structure TrialInv (w : Nat → α) (s : TrialSt α) : Prop where
  mvar_eq : s.mVar = s.mR
  mid_ne : s.mQ.mid ≠ s.mR.mid
  mid_lt_q : s.mQ.mid < s.ctr
  mid_lt_r : s.mR.mid < s.ctr
  acq_ok : ∀ e ∈ s.acqLog, e.1 = e.2.2 ∧ e.1.mid ≠ e.2.1.mid
  histQ_last : s.histQ.getLast? = some s.dataQ
  histR_last : s.histR.getLast? = some s.dataR
  histQ_valid : ∀ a ∈ s.histQ, compsValid a
  histR_valid : ∀ a ∈ s.histR, compsValid a
  histQ_ne : ∀ a ∈ s.histQ, a.X ≠ []
  histR_ne : ∀ a ∈ s.histR, a.X ≠ []
  histQ_chain : List.Chain' growRel s.histQ
  histR_chain : List.Chain' growRel s.histR
  bestQ_eq : s.bestQ = s.histQ.map (fun a => torchMax (a.X.map (utilityW w)))
  bestR_eq : s.bestR = s.histR.map (fun a => torchMax (a.X.map (utilityW w)))
  acq_len : s.acqLog.length + 1 = s.histQ.length

theorem make_new_data_valid {w : Nat → α} {nz : α} {X nX : List (List α)}
    {comps : List (Nat × Nat)} {qc : Nat} {picks : List Nat} {g0 g1 : Nat → α}
    {X' : List (List α)} {comps' : List (Nat × Nat)}
    (h : make_new_data w nz X nX comps qc picks g0 g1 = .ok (X', comps'))
    (hv : ∀ r ∈ comps, r.1 < X.length ∧ r.2 < X.length) :
    (∀ r ∈ comps', r.1 < X'.length ∧ r.2 < X'.length) ∧
      X' = X ++ nX ∧ (∃ c, comps' = comps ++ c) ∧ (X ≠ [] → X' ≠ []) := by
  obtain ⟨nc, hg, hX, hC, hL, hB⟩ := make_new_data_ok h
  subst hX
  subst hC
  refine ⟨?_, rfl, ⟨_, rfl⟩, ?_⟩
  · intro r hr
    rw [List.length_append]
    rcases List.mem_append.mp hr with h1 | h1
    · have := hv r h1
      omega
    · obtain ⟨r0, hr0, rfl⟩ := List.mem_map.mp h1
      have := hB r0 hr0
      dsimp only
      omega
  · intro hne
    cases X with
    | nil => exact absurd rfl hne
    | cons a t => simp

theorem qneiStep_ok {w : Nat → α} {nz : α} {br : BatchRnd α} {s s' : TrialSt α}
    (h : qneiStep w nz br s = .ok s') :
    ∃ xq cq, make_new_data w nz s.dataQ.X br.acqNext s.dataQ.comps q_comp
        br.qneiComp.picks br.qneiComp.g0 br.qneiComp.g1 = .ok (xq, cq) ∧
      s' = { s with
        dataQ := ⟨xq, cq⟩, mQ := ⟨s.ctr, xq, cq⟩, mVar := ⟨s.ctr, xq, cq⟩,
        bestQ := s.bestQ ++ [torchMax (xq.map (utilityW w))],
        histQ := s.histQ ++ [⟨xq, cq⟩],
        acqLog := s.acqLog ++ [(s.mVar, s.mQ, s.mR)],
        ctr := s.ctr + 1 } := by
  unfold qneiStep at h
  dsimp only at h
  cases h1 : make_new_data w nz s.dataQ.X br.acqNext s.dataQ.comps q_comp
      br.qneiComp.picks br.qneiComp.g0 br.qneiComp.g1 with
  | error e => rw [h1] at h; exact absurd h (by simp [Bind.bind, Except.bind])
  | ok p =>
    obtain ⟨xq, cq⟩ := p
    rw [h1] at h
    simp only [Bind.bind, Except.bind, init_and_fit_model, pure, Except.pure] at h
    injection h with h
    exact ⟨xq, cq, rfl, h.symm⟩

theorem randStep_ok {w : Nat → α} {nz : α} {br : BatchRnd α} {s s' : TrialSt α}
    (h : randStep w nz br s = .ok s') :
    ∃ xr cr, make_new_data w nz s.dataR.X (generate_data w q dim br.randCoords).1
        s.dataR.comps q_comp br.randComp.picks br.randComp.g0 br.randComp.g1
        = .ok (xr, cr) ∧
      s' = { s with
        dataR := ⟨xr, cr⟩, mR := ⟨s.ctr, xr, cr⟩, mVar := ⟨s.ctr, xr, cr⟩,
        bestR := s.bestR ++ [torchMax (xr.map (utilityW w))],
        histR := s.histR ++ [⟨xr, cr⟩],
        ctr := s.ctr + 1 } := by
  unfold randStep at h
  dsimp only at h
  cases h1 : make_new_data w nz s.dataR.X (generate_data w q dim br.randCoords).1
      s.dataR.comps q_comp br.randComp.picks br.randComp.g0 br.randComp.g1 with
  | error e => rw [h1] at h; exact absurd h (by simp [Bind.bind, Except.bind])
  | ok p =>
    obtain ⟨xq, cq⟩ := p
    rw [h1] at h
    simp only [Bind.bind, Except.bind, init_and_fit_model, pure, Except.pure] at h
    injection h with h
    exact ⟨xq, cq, rfl, h.symm⟩

theorem batchStep_inv {w : Nat → α} {nz : α} {br : BatchRnd α} {s s' : TrialSt α}
    (hs : TrialInv w s) (h : batchStep w nz s br = .ok s') :
    TrialInv w s' ∧ s'.histQ.length = s.histQ.length + 1
      ∧ s'.histR.length = s.histR.length + 1
      ∧ s'.histQ.head? = s.histQ.head?
      ∧ s'.histR.head? = s.histR.head? := by
  unfold batchStep at h
  cases hq : qneiStep w nz br s with
  | error e => rw [hq] at h; exact absurd h (by simp [Bind.bind, Except.bind])
  | ok s1 =>
    rw [hq] at h
    simp only [Bind.bind, Except.bind] at h
    obtain ⟨xq, cq, hmq, hs1⟩ := qneiStep_ok hq
    obtain ⟨xr, cr, hmr, hs2⟩ := randStep_ok h
    rw [hs1] at hmr hs2
    dsimp only at hmr hs2
    have hdQ : s.dataQ ∈ s.histQ := mem_of_getLast_eq hs.histQ_last
    have hdR : s.dataR ∈ s.histR := mem_of_getLast_eq hs.histR_last
    have hneQ : s.dataQ.X ≠ [] := hs.histQ_ne _ hdQ
    have hneR : s.dataR.X ≠ [] := hs.histR_ne _ hdR
    obtain ⟨hvQ, hXQ, hCQ, hkQ⟩ := make_new_data_valid hmq (hs.histQ_valid _ hdQ)
    obtain ⟨hvR, hXR, hCR, hkR⟩ := make_new_data_valid hmr (hs.histR_valid _ hdR)
    have hQne : s.histQ ≠ [] := ne_nil_of_getLast_eq hs.histQ_last
    have hRne : s.histR ≠ [] := ne_nil_of_getLast_eq hs.histR_last
    subst hs2
    refine ⟨⟨rfl, ?_, ?_, ?_, ?_, ?_, ?_, ?_, ?_, ?_, ?_, ?_, ?_, ?_, ?_, ?_⟩,
      ?_, ?_, ?_, ?_⟩
    · show s.ctr ≠ s.ctr + 1
      omega
    · show s.ctr < s.ctr + 1 + 1
      omega
    · show s.ctr + 1 < s.ctr + 1 + 1
      omega
    · show ∀ e ∈ s.acqLog ++ [(s.mVar, s.mQ, s.mR)], _
      intro e he
      rcases List.mem_append.mp he with h1 | h1
      · exact hs.acq_ok e h1
      · rw [List.mem_singleton] at h1
        subst h1
        exact ⟨hs.mvar_eq, by rw [hs.mvar_eq]; exact (hs.mid_ne).symm⟩
    · show (s.histQ ++ [(⟨xq, cq⟩ : AlgoData α)]).getLast? = some ⟨xq, cq⟩
      exact List.getLast?_concat _
    · show (s.histR ++ [(⟨xr, cr⟩ : AlgoData α)]).getLast? = some ⟨xr, cr⟩
      exact List.getLast?_concat _
    · show ∀ a ∈ s.histQ ++ [(⟨xq, cq⟩ : AlgoData α)], compsValid a
      intro a ha
      rcases List.mem_append.mp ha with h1 | h1
      · exact hs.histQ_valid a h1
      · rw [List.mem_singleton] at h1
        subst h1
        exact hvQ
    · show ∀ a ∈ s.histR ++ [(⟨xr, cr⟩ : AlgoData α)], compsValid a
      intro a ha
      rcases List.mem_append.mp ha with h1 | h1
      · exact hs.histR_valid a h1
      · rw [List.mem_singleton] at h1
        subst h1
        exact hvR
    · show ∀ a ∈ s.histQ ++ [(⟨xq, cq⟩ : AlgoData α)], a.X ≠ []
      intro a ha
      rcases List.mem_append.mp ha with h1 | h1
      · exact hs.histQ_ne a h1
      · rw [List.mem_singleton] at h1
        subst h1
        exact hkQ hneQ
    · show ∀ a ∈ s.histR ++ [(⟨xr, cr⟩ : AlgoData α)], a.X ≠ []
      intro a ha
      rcases List.mem_append.mp ha with h1 | h1
      · exact hs.histR_ne a h1
      · rw [List.mem_singleton] at h1
        subst h1
        exact hkR hneR
    · show List.Chain' growRel (s.histQ ++ [(⟨xq, cq⟩ : AlgoData α)])
      refine List.Chain'.append hs.histQ_chain (List.chain'_singleton _) ?_
      intro x hx y hy
      rw [hs.histQ_last, Option.mem_some_iff] at hx
      rw [List.head?_cons, Option.mem_some_iff] at hy
      subst hx
      subst hy
      exact ⟨hneQ, ⟨br.acqNext, hXQ⟩, hCQ⟩
    · show List.Chain' growRel (s.histR ++ [(⟨xr, cr⟩ : AlgoData α)])
      refine List.Chain'.append hs.histR_chain (List.chain'_singleton _) ?_
      intro x hx y hy
      rw [hs.histR_last, Option.mem_some_iff] at hx
      rw [List.head?_cons, Option.mem_some_iff] at hy
      subst hx
      subst hy
      exact ⟨hneR, ⟨(generate_data w q dim br.randCoords).1, hXR⟩, hCR⟩
    · show s.bestQ ++ [torchMax (xq.map (utilityW w))]
        = (s.histQ ++ [(⟨xq, cq⟩ : AlgoData α)]).map
            (fun a => torchMax (a.X.map (utilityW w)))
      rw [List.map_append, hs.bestQ_eq]
      rfl
    · show s.bestR ++ [torchMax (xr.map (utilityW w))]
        = (s.histR ++ [(⟨xr, cr⟩ : AlgoData α)]).map
            (fun a => torchMax (a.X.map (utilityW w)))
      rw [List.map_append, hs.bestR_eq]
      rfl
    · show (s.acqLog ++ [(s.mVar, s.mQ, s.mR)]).length + 1
        = (s.histQ ++ [(⟨xq, cq⟩ : AlgoData α)]).length
      rw [List.length_append, List.length_append]
      have := hs.acq_len
      simp only [List.length_cons, List.length_nil]
      omega
    · show (s.histQ ++ [(⟨xq, cq⟩ : AlgoData α)]).length = s.histQ.length + 1
      simp
    · show (s.histR ++ [(⟨xr, cr⟩ : AlgoData α)]).length = s.histR.length + 1
      simp
    · show (s.histQ ++ [(⟨xq, cq⟩ : AlgoData α)]).head? = s.histQ.head?
      exact List.head?_append_of_ne_nil _ hQne
    · show (s.histR ++ [(⟨xr, cr⟩ : AlgoData α)]).head? = s.histR.head?
      exact List.head?_append_of_ne_nil _ hRne

theorem initTrial_ok {w : Nat → α} {nz : α} {r : TrialRnd α} {s : TrialSt α}
    (h : initTrial w nz r = .ok s) :
    ∃ c0, generate_comparisons ((generate_data w q dim r.initCoords).2) q_comp nz
        false r.initComp.picks r.initComp.g0 r.initComp.g1 = .ok c0 ∧
      s = { dataQ := ⟨(generate_data w q dim r.initCoords).1, c0⟩,
            dataR := ⟨(generate_data w q dim r.initCoords).1, c0⟩,
            mQ := ⟨0, (generate_data w q dim r.initCoords).1, c0⟩,
            mR := ⟨1, (generate_data w q dim r.initCoords).1, c0⟩,
            mVar := ⟨1, (generate_data w q dim r.initCoords).1, c0⟩,
            bestQ := [torchMax
              ((generate_data w q dim r.initCoords).1.map (utilityW w))],
            bestR := [torchMax
              ((generate_data w q dim r.initCoords).1.map (utilityW w))],
            histQ := [⟨(generate_data w q dim r.initCoords).1, c0⟩],
            histR := [⟨(generate_data w q dim r.initCoords).1, c0⟩],
            acqLog := [], ctr := 2 } := by
  unfold initTrial at h
  dsimp only at h
  cases h1 : generate_comparisons ((generate_data w q dim r.initCoords).2) q_comp
      nz false r.initComp.picks r.initComp.g0 r.initComp.g1 with
  | error e => rw [h1] at h; exact absurd h (by simp [Bind.bind, Except.bind])
  | ok c0 =>
    rw [h1] at h
    simp only [Bind.bind, Except.bind, init_and_fit_model, pure, Except.pure] at h
    injection h with h
    exact ⟨c0, rfl, h.symm⟩

theorem generate_data_fst_length (w : Nat → α) (n d : Nat)
    (coords : Nat → Nat → α) : (generate_data w n d coords).1.length = n := by
  simp [generate_data]

theorem generate_data_snd_length (w : Nat → α) (n d : Nat)
    (coords : Nat → Nat → α) :
    (generate_data w n d coords).2.length = n := by
  simp [generate_data]

theorem initTrial_inv {w : Nat → α} {nz : α} {r : TrialRnd α} {s : TrialSt α}
    (h : initTrial w nz r = .ok s) :
    TrialInv w s ∧ s.histQ.length = 1 ∧ s.histR.length = 1 ∧
      s.histQ.head? = some s.dataQ ∧ s.histR.head? = some s.dataR ∧
      s.dataQ = s.dataR := by
  obtain ⟨c0, hg, hs⟩ := initTrial_ok h
  subst hs
  obtain ⟨hbl, hbb⟩ := generate_comparisons_ok_bounds hg
  have hXne : (generate_data w q dim r.initCoords).1 ≠ [] := by
    intro hc
    have := generate_data_fst_length w q dim r.initCoords
    rw [hc] at this
    simp [q] at this
  have hvalid : compsValid (⟨(generate_data w q dim r.initCoords).1, c0⟩ :
      AlgoData α) := by
    intro rr hrr
    have hb := hbb rr hrr
    have h2 : ((generate_data w q dim r.initCoords).2).length
        = (generate_data w q dim r.initCoords).1.length := by
      rw [generate_data_fst_length, generate_data_snd_length]
    dsimp only
    omega
  refine ⟨⟨rfl, by show (0 : Nat) ≠ 1; omega, by show (0 : Nat) < 2; omega,
    by show (1 : Nat) < 2; omega, ?_, rfl, rfl, ?_, ?_, ?_, ?_,
    List.chain'_singleton _, List.chain'_singleton _, rfl, rfl, rfl⟩,
    rfl, rfl, rfl, rfl, rfl⟩
  · intro e he
    exact absurd he (List.not_mem_nil e)
  · intro a ha
    rw [List.mem_singleton] at ha
    subst ha
    exact hvalid
  · intro a ha
    rw [List.mem_singleton] at ha
    subst ha
    exact hvalid
  · intro a ha
    rw [List.mem_singleton] at ha
    subst ha
    exact hXne
  · intro a ha
    rw [List.mem_singleton] at ha
    subst ha
    exact hXne

theorem runBatches_inv {w : Nat → α} {nz : α} {s : TrialSt α}
    {br : Nat → BatchRnd α} {n : Nat} {s' : TrialSt α} (hs : TrialInv w s)
    (h : runBatches w nz s br n = .ok s') :
    TrialInv w s' ∧ s'.histQ.length = s.histQ.length + n
      ∧ s'.histR.length = s.histR.length + n
      ∧ s'.histQ.head? = s.histQ.head? ∧ s'.histR.head? = s.histR.head? := by
  induction n generalizing s' with
  | zero =>
    unfold runBatches at h
    injection h with h
    subst h
    exact ⟨hs, rfl, rfl, rfl, rfl⟩
  | succ m ih =>
    unfold runBatches at h
    cases hr : runBatches w nz s br m with
    | error e => rw [hr] at h; exact absurd h (by simp [Bind.bind, Except.bind])
    | ok sm =>
      rw [hr] at h
      simp only [Bind.bind, Except.bind] at h
      obtain ⟨h1, h2, h3, h4, h5⟩ := ih hr
      obtain ⟨hi, l1, l2, hh1, hh2⟩ := batchStep_inv h1 h
      exact ⟨hi, by omega, by omega, by rw [hh1, h4], by rw [hh2, h5]⟩

theorem runTrial_inv {w : Nat → α} {nz : α} {r : TrialRnd α} {s' : TrialSt α}
    (h : runTrial w nz r = .ok s') :
    TrialInv w s' ∧ s'.histQ.length = NUM_BATCHES + 1
      ∧ s'.histR.length = NUM_BATCHES + 1
      ∧ ∃ s0, initTrial w nz r = .ok s0 ∧
          s'.histQ.head? = some s0.dataQ ∧ s'.histR.head? = some s0.dataR ∧
          s0.dataQ = s0.dataR := by
  unfold runTrial at h
  cases h0 : initTrial w nz r with
  | error e => rw [h0] at h; exact absurd h (by simp [Bind.bind, Except.bind])
  | ok s0 =>
    rw [h0] at h
    simp only [Bind.bind, Except.bind] at h
    obtain ⟨hi, l1, l2, hh1, hh2, hdd⟩ := initTrial_inv h0
    obtain ⟨hi', k1, k2, k3, k4⟩ := runBatches_inv hi h
    exact ⟨hi', by omega, by omega, s0, rfl, by rw [k3, hh1], by rw [k4, hh2], hdd⟩

theorem growRel_le {w : Nat → α} {a b : AlgoData α} (h : growRel a b) :
    torchMax (a.X.map (utilityW w)) ≤ torchMax (b.X.map (utilityW w)) := by
  obtain ⟨hne, ⟨t, ht⟩, -⟩ := h
  rw [ht, List.map_append]
  apply torchMax_le_append
  intro hc
  exact hne (List.map_eq_nil_iff.mp hc)

/-! ### Concrete oracle inputs for the executable witnesses (over `ℤ`) -/

def wZ : Nat → ℤ := fun _ => 1

def zZ : Nat → ℤ := fun _ => 0

def zzZ : Nat → Nat → ℤ := fun _ _ => 0

def crZ : CompRnd ℤ := ⟨[0, 1, 2], zZ, zZ⟩

def rndZ : TrialRnd ℤ :=
  { initCoords := zzZ, initComp := crZ,
    batches := fun _ =>
      { acqNext := List.replicate 3 (List.replicate 5 (0 : ℤ)),
        qneiComp := crZ, randCoords := zzZ, randComp := crZ } }

def sZ : TrialSt ℤ := (runTrial wZ 0 rndZ).toOption.getD default

/-! ### The claims -/

/-- C2: for every latent-value vector `y` of length `n`,
`generate_comparisons(y, n_comp, noise, replace=False)` fails with
numpy's invalid-argument error whenever `n_comp` exceeds `C(n, 2)`, the
number of unordered index pairs, rather than returning a truncated
result. -/
theorem c2_overrequest_errors (y : List α) (n_comp : Nat) (nz : α)
    (picks : List Nat) (g0 g1 : Nat → α)
    (h : (y.length).choose 2 < n_comp) :
    generate_comparisons y n_comp nz false picks g0 g1 = .error npChoiceMsg :=
  generate_comparisons_error h

theorem c2_witness :
    (([(0 : ℤ), 0].length).choose 2 < 2) ∧
    generate_comparisons [(0 : ℤ), 0] 2 0 false [0] zZ zZ
      = .error npChoiceMsg :=
  ⟨by decide, c2_overrequest_errors [(0 : ℤ), 0] 2 0 [0] zZ zZ (by decide)⟩

/-- C6: for every `y` and every `n_comp ≤ C(len y, 2)`, with valid
without-replacement draws, `generate_comparisons(y, n_comp, noise,
replace=False)` succeeds and returns `n_comp` rows whose entries all
lie in `[0, len y)`; each row is the chosen pair kept in order exactly
when the first endpoint's noisy score is at least the second's, and
flipped (winner first) exactly when the first endpoint's noisy score is
strictly smaller; and the rows come from `n_comp` distinct unordered
pairs. -/
theorem c6_comparisons_wellformed (y : List α) (n_comp : Nat) (nz : α)
    (picks : List Nat) (g0 g1 : Nat → α)
    (hlen : picks.length = n_comp)
    (hmem : ∀ i ∈ picks, i < (y.length).choose 2)
    (hnd : picks.Nodup)
    (hle : n_comp ≤ (y.length).choose 2) :
    ∃ rows, generate_comparisons y n_comp nz false picks g0 g1 = .ok rows ∧
      rows.length = n_comp ∧
      (∀ r ∈ rows, r.1 < y.length ∧ r.2 < y.length) ∧
      (∀ k, k < rows.length →
        (rows.getD k (0, 0) = (pickPairs y.length picks).getD k (0, 0) ∧
          y.getD ((pickPairs y.length picks).getD k (0, 0)).2 0 + g1 k * nz
            ≤ y.getD ((pickPairs y.length picks).getD k (0, 0)).1 0 + g0 k * nz)
        ∨
        (rows.getD k (0, 0) = (((pickPairs y.length picks).getD k (0, 0)).2,
            ((pickPairs y.length picks).getD k (0, 0)).1) ∧
          y.getD ((pickPairs y.length picks).getD k (0, 0)).1 0 + g0 k * nz
            < y.getD ((pickPairs y.length picks).getD k (0, 0)).2 0 + g1 k * nz)) ∧
      (rows.map (fun r => (min r.1 r.2, max r.1 r.2))).Nodup := by
  have hmem' : ∀ i ∈ picks, i < (allPairs y.length).length := by
    intro i hi
    rw [allPairs_length]
    exact hmem i hi
  have hg := @generate_comparisons_ok_of_valid α _ y n_comp nz picks g0 g1 hlen hmem hnd hle
  refine ⟨_, hg, ?_, (generate_comparisons_ok_bounds hg).2, ?_, ?_⟩
  · rw [noisyFlip_length, pickPairs_length, hlen]
  · intro k hk
    have hk2 : k < (pickPairs y.length picks).length := by
      rw [noisyFlip_length] at hk
      exact hk
    rw [noisyFlip_getD _ _ _ _ _ _ hk2]
    split_ifs with hc
    · right
      exact ⟨rfl, hc⟩
    · left
      exact ⟨rfl, not_lt.mp hc⟩
  · rw [noisyFlip_norm ?hp]
    · exact pickPairs_nodup hnd hmem'
    case hp =>
      intro p hp
      exact (mem_allPairs.mp (pickPairs_mem hmem' p hp)).1

theorem c6_witness :
    (([0] : List Nat).length = 1) ∧
    (∀ i ∈ ([0] : List Nat), i < (([(0 : ℤ), 1]).length).choose 2) ∧
    (([0] : List Nat).Nodup) ∧
    (1 ≤ (([(0 : ℤ), 1]).length).choose 2) ∧
    (∃ rows, generate_comparisons [(0 : ℤ), 1] 1 0 false [0] zZ zZ = .ok rows ∧
      rows.length = 1 ∧
      (∀ r ∈ rows, r.1 < [(0 : ℤ), 1].length ∧ r.2 < [(0 : ℤ), 1].length) ∧
      (∀ k, k < rows.length →
        (rows.getD k (0, 0) = (pickPairs [(0 : ℤ), 1].length [0]).getD k (0, 0) ∧
          [(0 : ℤ), 1].getD ((pickPairs [(0 : ℤ), 1].length [0]).getD k (0, 0)).2 0
              + zZ k * 0
            ≤ [(0 : ℤ), 1].getD
                ((pickPairs [(0 : ℤ), 1].length [0]).getD k (0, 0)).1 0
              + zZ k * 0)
        ∨
        (rows.getD k (0, 0) = (((pickPairs [(0 : ℤ), 1].length [0]).getD k (0, 0)).2,
            ((pickPairs [(0 : ℤ), 1].length [0]).getD k (0, 0)).1) ∧
          [(0 : ℤ), 1].getD ((pickPairs [(0 : ℤ), 1].length [0]).getD k (0, 0)).1 0
              + zZ k * 0
            < [(0 : ℤ), 1].getD
                ((pickPairs [(0 : ℤ), 1].length [0]).getD k (0, 0)).2 0
              + zZ k * 0)) ∧
      (rows.map (fun r => (min r.1 r.2, max r.1 r.2))).Nodup) :=
  ⟨rfl, by decide, by decide, by decide,
    c6_comparisons_wellformed [(0 : ℤ), 1] 1 0 [0] zZ zZ rfl (by decide)
      (by decide) (by decide)⟩

/-- C3: whenever `make_new_data(X, next_X, comps, q_comp)` returns, the
resulting point collection has exactly `|X| + |next_X|` points and the
comparison array is the old one with rows appended whose two indices
all lie in `[|X|, |X| + |next_X|)`. -/
theorem c3_make_new_data_extends {w : Nat → α} {nz : α}
    {X next_X : List (List α)} {comps : List (Nat × Nat)} {qc : Nat}
    {picks : List Nat} {g0 g1 : Nat → α} {X' : List (List α)}
    {comps' : List (Nat × Nat)}
    (h : make_new_data w nz X next_X comps qc picks g0 g1 = .ok (X', comps')) :
    X'.length = X.length + next_X.length ∧
      ∃ newRows, comps' = comps ++ newRows ∧
        ∀ r ∈ newRows,
          (X.length ≤ r.1 ∧ r.1 < X.length + next_X.length) ∧
          (X.length ≤ r.2 ∧ r.2 < X.length + next_X.length) := by
  obtain ⟨nc, hg, hX, hC, hL, hB⟩ := make_new_data_ok h
  subst hX
  subst hC
  refine ⟨List.length_append _ _, _, rfl, ?_⟩
  intro r hr
  obtain ⟨r0, hr0, rfl⟩ := List.mem_map.mp hr
  have := hB r0 hr0
  dsimp only
  omega

theorem c3_witness :
    make_new_data wZ 0 [[1]] [[2], [3]] [(0, 0)] 1 [0] zZ zZ
      = .ok ([[(1 : ℤ)], [2], [3]], [(0, 0), (2, 1)]) ∧
    (([[(1 : ℤ)], [2], [3]] : List (List ℤ)).length
        = ([[(1 : ℤ)]] : List (List ℤ)).length
          + ([[(2 : ℤ)], [3]] : List (List ℤ)).length ∧
      ∃ newRows, ([(0, 0), (2, 1)] : List (Nat × Nat))
          = [(0, 0)] ++ newRows ∧
        ∀ r ∈ newRows,
          (([[(1 : ℤ)]] : List (List ℤ)).length ≤ r.1 ∧
            r.1 < ([[(1 : ℤ)]] : List (List ℤ)).length
              + ([[(2 : ℤ)], [3]] : List (List ℤ)).length) ∧
          (([[(1 : ℤ)]] : List (List ℤ)).length ≤ r.2 ∧
            r.2 < ([[(1 : ℤ)]] : List (List ℤ)).length
              + ([[(2 : ℤ)], [3]] : List (List ℤ)).length)) :=
  ⟨rfl, @c3_make_new_data_extends ℤ _ wZ 0 [[1]] [[2], [3]] [(0, 0)] 1 [0] zZ zZ
    [[(1 : ℤ)], [2], [3]] [(0, 0), (2, 1)] rfl⟩

/-- C4: along every successful trial run, after the initial dataset and
after every batch update, both variants' comparison arrays only contain
indices that are valid for the point collection current at that moment,
and both point collections and comparison arrays evolve append-only, so
previously valid comparison indices stay valid. -/
theorem c4_comparison_indices_valid {w : Nat → α} {nz : α} {r : TrialRnd α}
    {s : TrialSt α} (h : runTrial w nz r = .ok s) :
    (∀ a ∈ s.histQ, ∀ rr ∈ a.comps, rr.1 < a.X.length ∧ rr.2 < a.X.length) ∧
    (∀ a ∈ s.histR, ∀ rr ∈ a.comps, rr.1 < a.X.length ∧ rr.2 < a.X.length) ∧
    List.Chain' growStep s.histQ ∧ List.Chain' growStep s.histR := by
  obtain ⟨hi, -, -, -⟩ := runTrial_inv h
  exact ⟨hi.histQ_valid, hi.histR_valid,
    hi.histQ_chain.imp (fun a b hb => hb.2),
    hi.histR_chain.imp (fun a b hb => hb.2)⟩

theorem c4_witness :
    runTrial wZ 0 rndZ = Except.ok sZ ∧
    (∀ a ∈ sZ.histQ, ∀ rr ∈ a.comps, rr.1 < a.X.length ∧ rr.2 < a.X.length) ∧
    (∀ a ∈ sZ.histR, ∀ rr ∈ a.comps, rr.1 < a.X.length ∧ rr.2 < a.X.length) ∧
    List.Chain' growStep sZ.histQ ∧ List.Chain' growStep sZ.histR :=
  ⟨rfl, @c4_comparison_indices_valid ℤ _ wZ 0 rndZ sZ rfl⟩

/-- C5: along every successful trial run, each variant's recorded
best-observed-value sequence has `NUM_BATCHES + 1` entries (one after
the initial dataset plus one per batch), is non-decreasing, and each
entry is the maximum utility over the points of the dataset as of that
update. -/
theorem c5_best_vals_monotone {w : Nat → α} {nz : α} {r : TrialRnd α}
    {s : TrialSt α} (h : runTrial w nz r = .ok s) :
    s.bestQ.length = NUM_BATCHES + 1 ∧ s.bestR.length = NUM_BATCHES + 1 ∧
    List.Chain' (· ≤ ·) s.bestQ ∧ List.Chain' (· ≤ ·) s.bestR ∧
    s.bestQ = s.histQ.map (fun a => torchMax (a.X.map (utilityW w))) ∧
    s.bestR = s.histR.map (fun a => torchMax (a.X.map (utilityW w))) := by
  obtain ⟨hi, hlq, hlr, -⟩ := runTrial_inv h
  refine ⟨?_, ?_, ?_, ?_, hi.bestQ_eq, hi.bestR_eq⟩
  · rw [hi.bestQ_eq, List.length_map, hlq]
  · rw [hi.bestR_eq, List.length_map, hlr]
  · rw [hi.bestQ_eq, List.chain'_map]
    exact hi.histQ_chain.imp (fun a b => growRel_le)
  · rw [hi.bestR_eq, List.chain'_map]
    exact hi.histR_chain.imp (fun a b => growRel_le)

theorem c5_witness :
    runTrial wZ 0 rndZ = Except.ok sZ ∧
    sZ.bestQ.length = NUM_BATCHES + 1 ∧ sZ.bestR.length = NUM_BATCHES + 1 ∧
    List.Chain' (· ≤ ·) sZ.bestQ ∧ List.Chain' (· ≤ ·) sZ.bestR ∧
    sZ.bestQ = sZ.histQ.map (fun a => torchMax (a.X.map (utilityW wZ))) ∧
    sZ.bestR = sZ.histR.map (fun a => torchMax (a.X.map (utilityW wZ))) :=
  ⟨rfl, @c5_best_vals_monotone ℤ _ wZ 0 rndZ sZ rfl⟩

/-- C10: in every successful trial run, both variants start from the
identical initial dataset — the same `q` initial points and the same
initial comparison array, drawn once before the per-variant loop. -/
theorem c10_shared_initial_dataset {w : Nat → α} {nz : α} {r : TrialRnd α}
    {s : TrialSt α} (h : runTrial w nz r = .ok s) :
    ∃ c0,
      (generate_data w q dim r.initCoords).1.length = q ∧
      generate_comparisons ((generate_data w q dim r.initCoords).2) q_comp nz
        false r.initComp.picks r.initComp.g0 r.initComp.g1 = .ok c0 ∧
      s.histQ.head? = some ⟨(generate_data w q dim r.initCoords).1, c0⟩ ∧
      s.histR.head? = some ⟨(generate_data w q dim r.initCoords).1, c0⟩ := by
  obtain ⟨-, -, -, s0, h0, hq1, hr1, -⟩ := runTrial_inv h
  obtain ⟨c0, hg, hs0⟩ := initTrial_ok h0
  refine ⟨c0, generate_data_fst_length .., hg, ?_, ?_⟩
  · rw [hq1, hs0]
  · rw [hr1, hs0]

theorem c10_witness :
    runTrial wZ 0 rndZ = Except.ok sZ ∧
    ∃ c0,
      (generate_data wZ q dim rndZ.initCoords).1.length = q ∧
      generate_comparisons ((generate_data wZ q dim rndZ.initCoords).2) q_comp
        (0 : ℤ) false rndZ.initComp.picks rndZ.initComp.g0 rndZ.initComp.g1
        = .ok c0 ∧
      sZ.histQ.head? = some ⟨(generate_data wZ q dim rndZ.initCoords).1, c0⟩ ∧
      sZ.histR.head? = some ⟨(generate_data wZ q dim rndZ.initCoords).1, c0⟩ :=
  ⟨rfl, @c10_shared_initial_dataset ℤ _ wZ 0 rndZ sZ rfl⟩

/-- C1 (refutation of the claim): in every batch of every successful
trial run, the model handed to `qNoisyExpectedImprovement` at the qNEI
proposing step is exactly the current `models["rand"]` — the rand
variant's most recent fit — and is never the current `models["qNEI"]`:
the script reads the stale loop variable `model`, which the preceding
iteration (or the initialization loop, whose last variant is `"rand"`)
left pointing at the rand variant's model.  The log records, for each
of the `NUM_BATCHES` batches, the model passed to the acquisition
function together with `models["qNEI"]` and `models["rand"]` at that
moment. -/
theorem c1_acq_uses_rand_model {w : Nat → α} {nz : α} {r : TrialRnd α}
    {s : TrialSt α} (h : runTrial w nz r = .ok s) :
    s.acqLog.length = NUM_BATCHES ∧
    ∀ e ∈ s.acqLog, e.1 = e.2.2 ∧ e.1.mid ≠ e.2.1.mid := by
  obtain ⟨hi, hlq, -, -⟩ := runTrial_inv h
  have := hi.acq_len
  exact ⟨by omega, hi.acq_ok⟩

theorem c1_witness :
    runTrial wZ 0 rndZ = Except.ok sZ ∧
    sZ.acqLog.length = NUM_BATCHES ∧
    ∀ e ∈ sZ.acqLog, e.1 = e.2.2 ∧ e.1.mid ≠ e.2.1.mid :=
  ⟨rfl, @c1_acq_uses_rand_model ℤ _ wZ 0 rndZ sZ rfl⟩

/-- C7: for every point `x` of length `d`, `utility(x)` equals
`Σ_{i=1..d} √i · x_i` (the dimension-weighted sum, weights `√i` for the
1-based dimension `i`), and `utility` is strictly increasing in each
coordinate.  As a Lean function the embedding is pure and deterministic
by construction. -/
theorem c7_utility_weighted_sum_monotone :
    (∀ x : List ℝ, utility x
        = ∑ i ∈ Finset.Icc 1 x.length, Real.sqrt i * x.getD (i - 1) 0) ∧
    (∀ (x : List ℝ) (i : Nat) (v : ℝ), i < x.length → x.getD i 0 < v →
      utility x < utility (x.set i v)) := by
  constructor
  · intro x
    rw [utility, utilityW_eq_sum_Icc]
    refine Finset.sum_congr rfl (fun i hi => ?_)
    have h1 : 1 ≤ i := (Finset.mem_Icc.mp hi).1
    have h2 : ((i - 1 : ℕ) : ℝ) + 1 = (i : ℝ) := by
      rw [Nat.cast_sub h1]
      push_cast
      ring
    rw [h2]
  · intro x i v hi hv
    rw [utility, utility, utilityW_eq_sum, utilityW_eq_sum, List.length_set]
    have hmem : i ∈ Finset.range x.length := Finset.mem_range.mpr hi
    rw [Finset.sum_eq_sum_diff_singleton_add hmem,
      Finset.sum_eq_sum_diff_singleton_add hmem]
    have hcong : ∑ j ∈ Finset.range x.length \ {i},
          (x.set i v).getD j 0 * Real.sqrt (j + 1)
        = ∑ j ∈ Finset.range x.length \ {i},
          x.getD j 0 * Real.sqrt (j + 1) := by
      refine Finset.sum_congr rfl (fun j hj => ?_)
      obtain ⟨hjr, hji⟩ := Finset.mem_sdiff.mp hj
      have hjl : j < x.length := Finset.mem_range.mp hjr
      have hne : ¬ i = j := fun hc => hji (Finset.mem_singleton.mpr hc.symm)
      rw [List.getD_eq_getElem _ _ (by rw [List.length_set]; exact hjl),
        List.getD_eq_getElem _ _ hjl, List.getElem_set, if_neg hne]
    rw [hcong]
    apply add_lt_add_left
    have h1 : (x.set i v).getD i 0 = v := by
      rw [List.getD_eq_getElem _ _ (by rw [List.length_set]; exact hi),
        List.getElem_set, if_pos rfl]
    rw [h1]
    have h2 : (0 : ℝ) < Real.sqrt (i + 1) := by
      apply Real.sqrt_pos.mpr
      positivity
    exact mul_lt_mul_of_pos_right hv h2

theorem c7_witness :
    (0 < [(0 : ℝ)].length) ∧ ([(0 : ℝ)].getD 0 0 < 1) ∧
    utility [(0 : ℝ)] < utility ([(0 : ℝ)].set 0 1) :=
  ⟨by decide, by norm_num [List.getD_cons_zero],
    c7_utility_weighted_sum_monotone.2 [0] 0 1 (by decide)
      (by norm_num [List.getD_cons_zero])⟩

/-- C8: for every point `x` with all `d` coordinates in `[0, 1]`,
`utility(x)` is at most the utility of the all-ones point, which equals
`Σ_{i=1..d} √i`; consequently, over any point collection whose points
all lie in the unit cube, no recorded best value (`torchMax` of the
utilities) exceeds this optimum, and the script's `optimal_val` is that
optimum for `dim = 5`. -/
theorem c8_utility_bounded_by_optimum :
    (∀ (d : Nat) (x : List ℝ), x.length = d → (∀ c ∈ x, 0 ≤ c ∧ c ≤ 1) →
      utility x ≤ utility (List.replicate d 1)) ∧
    (∀ d : Nat, utility (List.replicate d 1)
        = ∑ i ∈ Finset.Icc 1 d, Real.sqrt i) ∧
    (∀ (d : Nat) (X : List (List ℝ)),
      (∀ p ∈ X, p.length = d ∧ ∀ c ∈ p, 0 ≤ c ∧ c ≤ 1) →
      torchMax (X.map utility) ≤ utility (List.replicate d 1)) ∧
    optimal_val = ∑ i ∈ Finset.Icc 1 dim, Real.sqrt i := by
  have hb : ∀ (d : Nat) (x : List ℝ), x.length = d →
      (∀ c ∈ x, 0 ≤ c ∧ c ≤ 1) → utility x ≤ utility (List.replicate d 1) := by
    intro d x hlen hcube
    rw [utility, utility, utilityW_eq_sum, utilityW_eq_sum,
      List.length_replicate, hlen]
    refine Finset.sum_le_sum (fun i hi => ?_)
    have hid : i < d := Finset.mem_range.mp hi
    have h1 : (List.replicate d (1 : ℝ)).getD i 0 = 1 := by
      rw [List.getD_eq_getElem _ _ (by rw [List.length_replicate]; exact hid),
        List.getElem_replicate]
    rw [h1]
    have hxd : i < x.length := by omega
    have h2 : x.getD i 0 ≤ 1 := by
      rw [List.getD_eq_getElem _ _ hxd]
      exact (hcube _ (List.getElem_mem hxd)).2
    exact mul_le_mul_of_nonneg_right h2 (Real.sqrt_nonneg _)
  have hsum : ∀ d : Nat, utility (List.replicate d 1)
      = ∑ i ∈ Finset.Icc 1 d, Real.sqrt i := by
    intro d
    rw [utility, utilityW_eq_sum_Icc, List.length_replicate]
    refine Finset.sum_congr rfl (fun i hi => ?_)
    have h1 : 1 ≤ i := (Finset.mem_Icc.mp hi).1
    have hle : i ≤ d := (Finset.mem_Icc.mp hi).2
    have h2 : (List.replicate d (1 : ℝ)).getD (i - 1) 0 = 1 := by
      rw [List.getD_eq_getElem _ _ (by rw [List.length_replicate]; omega),
        List.getElem_replicate]
    rw [h2, mul_one]
    congr 1
    rw [Nat.cast_sub h1]
    push_cast
    ring
  refine ⟨hb, hsum, ?_, by unfold optimal_val; exact hsum dim⟩
  intro d X hX
  refine torchMax_le ?_ ?_
  · rw [hsum]
    exact Finset.sum_nonneg (fun i _ => Real.sqrt_nonneg _)
  · intro y hy
    obtain ⟨p, hp, rfl⟩ := List.mem_map.mp hy
    exact hb d p (hX p hp).1 (hX p hp).2

theorem c8_witness :
    ([(1 / 2 : ℝ)].length = 1) ∧ (∀ c ∈ [(1 / 2 : ℝ)], 0 ≤ c ∧ c ≤ 1) ∧
    utility [(1 / 2 : ℝ)] ≤ utility (List.replicate 1 1) :=
  ⟨rfl,
    by
      intro c hc
      rw [List.mem_singleton] at hc
      subst hc
      norm_num,
    c8_utility_bounded_by_optimum.1 1 [1 / 2] rfl
      (by
        intro c hc
        rw [List.mem_singleton] at hc
        subst hc
        norm_num)⟩

/-- C9: for every per-variant trajectory matrix (one row per trial),
the reporting step's per-step mean is the mean of that step's column,
and the error half-width `ci` equals `1.96 ×` the standard deviation of
the step's values (the root mean squared deviation from the step mean,
numpy's default `ddof=0`) divided by `√(number of trials)` — written
out with explicit finite sums on the right-hand side. -/
theorem c9_ci_formula (m : List (List ℝ)) (j : Nat) :
    meanAt m j = specMean (column m j) ∧
    ciAt m j = specHalfWidth m.length (column m j) := by
  have hmean : ∀ v : List ℝ, npMean v = specMean v := by
    intro v
    rw [npMean, specMean, list_sum_eq_sum_getD]
  constructor
  · exact hmean _
  · have harg : npMean ((column m j).map
        (fun a => (a - npMean (column m j)) ^ 2))
        = (∑ i ∈ Finset.range (column m j).length,
            ((column m j).getD i 0 - specMean (column m j)) ^ 2)
          / (column m j).length := by
      rw [npMean, list_sum_eq_sum_getD, List.length_map]
      congr 1
      refine Finset.sum_congr rfl (fun i hi => ?_)
      have hil : i < (column m j).length := Finset.mem_range.mp hi
      rw [List.getD_eq_getElem _ _ (by rw [List.length_map]; exact hil),
        List.getElem_map, List.getD_eq_getElem _ _ hil, hmean]
    have hlen : (column m j).length = m.length := by
      rw [column, List.length_map]
    rw [ciAt, specHalfWidth, npStd, harg, hlen]

end PBO
